import Mathlib

/-!
Verification of the PolyRead StarDict conversion scripts.

This file gives a shallow embedding, in Lean, of the byte-level StarDict
reader and of the text-cleanup / bidirectional-conversion routines of
`convert_french_stardict.py`, `convert_to_bidirectional.py` and
`create_bidirectional_packs.py`, together with theorems about them.

Modelling conventions:
- bytes are `Nat` values (with explicit `< 256` hypotheses where it matters);
- Python `str` values are `List Char`;
- fallible Python code (code that can raise) is modelled with `Option`;
- recursions that are not structural carry an explicit fuel argument set to
  the length of the input, so that every definition is executable by the
  kernel;
- Python's whitespace class (`str.isspace`, `str.strip`, `str.split`, regex
  `\s`) is modelled by the full Unicode list used by CPython, and regex
  `\d` by the full Unicode decimal-digit set (category Nd) CPython matches;
  Python's `str.isalpha` / `str.isdigit` are modelled on the Latin-1 range
  (ASCII plus Latin-1 letters; decimal digits), which is the range exercised
  by the dictionaries involved.
-/

/-- Whitespace exactly as CPython's `str.isspace` (bidi B/S/WS and category Zs). -/
def pyIsSpace (c : Char) : Bool :=
  c.toNat = 0x09 || c.toNat = 0x0A || c.toNat = 0x0B || c.toNat = 0x0C ||
  c.toNat = 0x0D || c.toNat = 0x1C || c.toNat = 0x1D || c.toNat = 0x1E ||
  c.toNat = 0x1F || c.toNat = 0x20 || c.toNat = 0x85 || c.toNat = 0xA0 ||
  c.toNat = 0x1680 || (0x2000 ≤ c.toNat && c.toNat ≤ 0x200A) ||
  c.toNat = 0x2028 || c.toNat = 0x2029 || c.toNat = 0x202F ||
  c.toNat = 0x205F || c.toNat = 0x3000

/-- Python `s.strip()`: drop whitespace from both ends. -/
def pyStrip (l : List Char) : List Char :=
  ((l.dropWhile pyIsSpace).reverse.dropWhile pyIsSpace).reverse

/-- A UTF-8 continuation byte. -/
def isCont (b : Nat) : Bool := 0x80 ≤ b && b ≤ 0xBF

/-- Strict UTF-8 decoding of a byte list, as Python's `bytes.decode('utf-8')`:
rejects overlong encodings, surrogates and code points above `0x10FFFF`. -/
def utf8Decode : List Nat → Option (List Char)
  | [] => some []
  | b :: bs =>
    if b ≤ 0x7F then
      (utf8Decode bs).map (fun r => Char.ofNat b :: r)
    else if 0xC2 ≤ b && b ≤ 0xDF then
      match bs with
      | b2 :: bs2 =>
        if isCont b2 then
          (utf8Decode bs2).map (fun r =>
            Char.ofNat ((b - 0xC0) * 0x40 + (b2 - 0x80)) :: r)
        else none
      | [] => none
    else if 0xE0 ≤ b && b ≤ 0xEF then
      match bs with
      | b2 :: b3 :: bs3 =>
        if (if b = 0xE0 then 0xA0 ≤ b2 && b2 ≤ 0xBF
            else if b = 0xED then 0x80 ≤ b2 && b2 ≤ 0x9F
            else isCont b2) && isCont b3 then
          (utf8Decode bs3).map (fun r =>
            Char.ofNat (((b - 0xE0) * 0x40 + (b2 - 0x80)) * 0x40 + (b3 - 0x80)) :: r)
        else none
      | _ => none
    else if 0xF0 ≤ b && b ≤ 0xF4 then
      match bs with
      | b2 :: b3 :: b4 :: bs4 =>
        if (if b = 0xF0 then 0x90 ≤ b2 && b2 ≤ 0xBF
            else if b = 0xF4 then 0x80 ≤ b2 && b2 ≤ 0x8F
            else isCont b2) && isCont b3 && isCont b4 then
          (utf8Decode bs4).map (fun r =>
            Char.ofNat ((((b - 0xF0) * 0x40 + (b2 - 0x80)) * 0x40 + (b3 - 0x80)) * 0x40
              + (b4 - 0x80)) :: r)
        else none
      | _ => none
    else none

/-- The inner loop of `read_idx_file`: read bytes up to a `0x00` terminator (or
end of stream), returning the word bytes and the remaining stream. -/
def readWord : List Nat → List Nat × List Nat
  | [] => ([], [])
  | b :: bs =>
    if b = 0 then ([], bs)
    else
      let r := readWord bs
      (b :: r.1, r.2)

/-- Big-endian 4-byte encoding of a 32-bit value (`struct.pack('>I', n)`). -/
def be4 (n : Nat) : List Nat :=
  [n / 0x1000000 % 256, n / 0x10000 % 256, n / 0x100 % 256, n % 256]

/-- Big-endian decoding of 4 bytes (`struct.unpack('>I', ...)`). -/
def be4dec : List Nat → Nat
  | [a, b, c, d] => ((a * 256 + b) * 256 + c) * 256 + d
  | _ => 0

/-- The outer loop of `read_idx_file`, with explicit fuel.  Per iteration:
read a NUL-terminated word (stop if it is empty), decode it as UTF-8 (on
failure `continue`, i.e. resume scanning at the byte right after the
terminator), then read 4 offset bytes and 4 size bytes (stop if fewer than 4
of either remain). -/
def readIdxGo : Nat → List Nat → List (List Char × Nat × Nat)
  | 0, _ => []
  | fuel + 1, l =>
    let wb := (readWord l).1
    let rest := (readWord l).2
    if wb = [] then []
    else
      match utf8Decode wb with
      | none => readIdxGo fuel rest
      | some w =>
        if 8 ≤ rest.length then
          (w, be4dec (rest.take 4), be4dec ((rest.drop 4).take 4)) ::
            readIdxGo fuel (rest.drop 8)
        else []

/-- `read_idx_file` on an in-memory `.idx` byte stream. -/
def readIdx (l : List Nat) : List (List Char × Nat × Nat) :=
  readIdxGo (l.length + 1) l

/-- The byte extraction of `read_dict_file`: `f.seek(offset); f.read(size)`. -/
def sliceBytes (data : List Nat) (off sz : Nat) : List Nat :=
  (data.drop off).take sz

/-- Latin-1 decoding (`bytes.decode('latin-1')`): each byte is its code point. -/
def latin1Decode (data : List Nat) : List Char :=
  data.map Char.ofNat

/-- The decode of `read_dict_file`, as the total function it computes on real
byte input: strict UTF-8 first, Latin-1 on failure. -/
def decodeDict (data : List Nat) : List Char :=
  match utf8Decode data with
  | some s => s
  | none => latin1Decode data

/-- `read_dict_file`'s result for a definition blob: decode then `.strip()`. -/
def readDictContent (data : List Nat) : List Char :=
  match utf8Decode data with
  | some s => pyStrip s
  | none => pyStrip (latin1Decode data)

/-- `read_dict_file`'s decode with each fallible step modelled by `Option`:
Latin-1 decoding is only defined on actual bytes (`< 256`); a `none` result
would correspond to an exception escaping the decode. -/
def readDictContentE (data : List Nat) : Option (List Char) :=
  match utf8Decode data with
  | some s => some (pyStrip s)
  | none =>
    if data.all (fun b => b < 256) then some (pyStrip (latin1Decode data))
    else none

/-- A synthetic `.idx` stream for a list of `(wordBytes, payload)` records,
starting at byte offset `off` into the `.dict` payload: each record is the
word bytes, a NUL terminator, the big-endian offset and the big-endian size. -/
def buildIdx : List (List Nat × List Nat) → Nat → List Nat
  | [], _ => []
  | (w, p) :: rs, off =>
    w ++ 0 :: (be4 off ++ be4 p.length ++ buildIdx rs (off + p.length))

/-- The `.dict` payload for those records: the payloads, concatenated. -/
def buildDict : List (List Nat × List Nat) → List Nat
  | [] => []
  | (_, p) :: rs => p ++ buildDict rs

/-- Total payload length of a record list. -/
def dictLen : List (List Nat × List Nat) → Nat
  | [] => 0
  | (_, p) :: rs => p.length + dictLen rs

/-- The index tuples a correct parse of `buildIdx recs off` should produce. -/
def expectedIdx : List (List Nat × List Nat) → Nat → List (List Char × Nat × Nat)
  | [], _ => []
  | (w, p) :: rs, off =>
    ((utf8Decode w).getD [], off, p.length) :: expectedIdx rs (off + p.length)

/-- Remainder of the stream after the first occurrence of `t`, if any. -/
def afterCh (t : Char) : List Char → Option (List Char)
  | [] => none
  | c :: cs => if c = t then some cs else afterCh t cs

/-- Given the characters after an opening delimiter, the remainder after a
regex match `o[^t]+t` ending at the first `t`, if the match succeeds (the
pattern needs at least one non-`t` character before the closing `t`). -/
def delimRem (t : Char) : List Char → Option (List Char)
  | [] => none
  | c :: cs => if c = t then none else afterCh t cs

/-- `re.sub(r'o[^t]+t', '', l)`: leftmost non-overlapping removal of
delimited groups, scanning resuming after each removed match.  Fueled. -/
def stripDGo (o t : Char) : Nat → List Char → List Char
  | 0, l => l
  | fuel + 1, [] => (fun _ => []) fuel
  | fuel + 1, c :: cs =>
    if c = o then
      match delimRem t cs with
      | some rem => stripDGo o t fuel rem
      | none => c :: stripDGo o t fuel cs
    else c :: stripDGo o t fuel cs

/-- `re.sub(r'<[^>]+>', '', ...)` and `re.sub(r'\[([^\]]+)\]', '', ...)`. -/
def stripDelims (o t : Char) (l : List Char) : List Char :=
  stripDGo o t l.length l

/-- `definition.split('\n')[0]`. -/
def firstLine (l : List Char) : List Char :=
  l.takeWhile (fun c => c ≠ '\n')

/-- `if ';' in main_def: main_def = main_def.split(';')[0].strip()`. -/
def semiCut (l : List Char) : List Char :=
  if ';' ∈ l then pyStrip (l.takeWhile (fun c => c ≠ ';')) else l

/-- The Unicode decimal-digit ranges (category Nd, CPython's table): the
exact character class Python 3's regex `\d` matches. -/
def ndRanges : List (Nat × Nat) := [
  (0x30, 0x39), (0x660, 0x669), (0x6F0, 0x6F9), (0x7C0, 0x7C9),
  (0x966, 0x96F), (0x9E6, 0x9EF), (0xA66, 0xA6F), (0xAE6, 0xAEF),
  (0xB66, 0xB6F), (0xBE6, 0xBEF), (0xC66, 0xC6F), (0xCE6, 0xCEF),
  (0xD66, 0xD6F), (0xDE6, 0xDEF), (0xE50, 0xE59), (0xED0, 0xED9),
  (0xF20, 0xF29), (0x1040, 0x1049), (0x1090, 0x1099), (0x17E0, 0x17E9),
  (0x1810, 0x1819), (0x1946, 0x194F), (0x19D0, 0x19D9), (0x1A80, 0x1A89),
  (0x1A90, 0x1A99), (0x1B50, 0x1B59), (0x1BB0, 0x1BB9), (0x1C40, 0x1C49),
  (0x1C50, 0x1C59), (0xA620, 0xA629), (0xA8D0, 0xA8D9), (0xA900, 0xA909),
  (0xA9D0, 0xA9D9), (0xA9F0, 0xA9F9), (0xAA50, 0xAA59), (0xABF0, 0xABF9),
  (0xFF10, 0xFF19), (0x104A0, 0x104A9), (0x10D30, 0x10D39), (0x11066, 0x1106F),
  (0x110F0, 0x110F9), (0x11136, 0x1113F), (0x111D0, 0x111D9), (0x112F0, 0x112F9),
  (0x11450, 0x11459), (0x114D0, 0x114D9), (0x11650, 0x11659), (0x116C0, 0x116C9),
  (0x11730, 0x11739), (0x118E0, 0x118E9), (0x11950, 0x11959), (0x11C50, 0x11C59),
  (0x11D50, 0x11D59), (0x11DA0, 0x11DA9), (0x16A60, 0x16A69), (0x16AC0, 0x16AC9),
  (0x16B50, 0x16B59), (0x1D7CE, 0x1D7FF), (0x1E140, 0x1E149), (0x1E2F0, 0x1E2F9),
  (0x1E950, 0x1E959), (0x1FBF0, 0x1FBF9)]

/-- A Unicode decimal digit (category Nd): Python regex `\d`. -/
def isDigitA (c : Char) : Bool :=
  ndRanges.any (fun r => r.1 ≤ c.toNat && c.toNat ≤ r.2)

/-- `re.sub(r'^\d+\.\s*', '', l)`: remove one leading run of digits followed
by a period and any following whitespace. -/
def ordStrip (l : List Char) : List Char :=
  let ds := l.takeWhile isDigitA
  let r := l.dropWhile isDigitA
  if ds = [] then l
  else
    match r with
    | '.' :: rest => rest.dropWhile pyIsSpace
    | _ => l

/-- `s.split()` (no argument): maximal runs of non-whitespace.  Fueled. -/
def pyWordsGo : Nat → List Char → List (List Char)
  | 0, _ => []
  | fuel + 1, [] => (fun _ => []) fuel
  | fuel + 1, c :: cs =>
    if pyIsSpace c then pyWordsGo fuel cs
    else
      (c :: cs.takeWhile (fun d => !pyIsSpace d)) ::
        pyWordsGo fuel (cs.dropWhile (fun d => !pyIsSpace d))

/-- `s.split()` on the whole input. -/
def pyWords (l : List Char) : List (List Char) :=
  pyWordsGo l.length l

/-- `' '.join(ws)`. -/
def joinSp : List (List Char) → List Char
  | [] => []
  | [w] => w
  | w :: ws => w ++ ' ' :: joinSp ws

/-- `' '.join(s.split())`: collapse whitespace runs to single spaces. -/
def collapseWs (l : List Char) : List Char :=
  joinSp (pyWords l)

/-- The forward-entry cleanup pipeline of `parse_stardict_entry`: strip HTML
tags, strip bracketed annotations, take the first line and strip it, cut at
the first semicolon, strip a leading ordinal, collapse whitespace. -/
def cleanDef (definition : List Char) : List Char :=
  collapseWs (ordStrip (semiCut (pyStrip (firstLine
    (stripDelims '[' ']' (stripDelims '<' '>' definition))))))

/-- `parse_stardict_entry`: returns the cleaned main definition together
with the tag- and bracket-stripped full definition. -/
def parseStardictEntry (definition : List Char) : List Char × List Char :=
  (cleanDef definition, stripDelims '[' ']' (stripDelims '<' '>' definition))

/-- A `dictionary_entries` row as inserted by the converters (the textual
columns; `id`/`created_at` are assigned by SQLite). -/
structure Row where
  lem : List Char
  defn : List Char
  direction : List Char
  sourceLanguage : List Char
  targetLanguage : List Char
deriving DecidableEq, Repr

/-- The per-record body of `convert_french_stardict.convert_stardict_to_bidirectional`:
read the definition blob, skip blank definitions, clean, skip blank glosses,
append a forward `('forward','fr','en')` row and, unless the gloss equals the
word, a reverse `('reverse','en','fr')` row.  Returns the forward batch and
the reverse batch (the insertion order used by the script). -/
def frenchConvert (idx dict : List Nat) : List Row × List Row :=
  (readIdx idx).foldl
    (fun acc e =>
      let definition := readDictContent (sliceBytes dict e.2.1 e.2.2)
      if definition = [] ∨ pyStrip definition = [] then acc
      else
        let cd := (parseStardictEntry definition).1
        if cd = [] ∨ pyStrip cd = [] then acc
        else
          (acc.1 ++ [⟨pyStrip e.1, pyStrip cd, "forward".data, "fr".data, "en".data⟩],
           if cd ≠ e.1 then
             acc.2 ++ [⟨pyStrip cd, pyStrip e.1, "reverse".data, "en".data, "fr".data⟩]
           else acc.2))
    ([], [])

/-- Scan for the first occurrence of `sep` as a contiguous sublist: returns
the characters before it and, if found, the characters after it. -/
def splitAux (sep : List Char) : List Char → List Char × Option (List Char)
  | [] => ([], none)
  | c :: cs =>
    if sep.isPrefixOf (c :: cs) then ([], some ((c :: cs).drop sep.length))
    else
      let r := splitAux sep cs
      (c :: r.1, r.2)

/-- Python `s in t` for strings (contiguous substring test). -/
def occursIn (sep l : List Char) : Bool :=
  (splitAux sep l).2.isSome

/-- Python `s.split(sep)` for a non-empty separator: leftmost,
non-overlapping.  Fueled. -/
def splitOnGo (sep : List Char) : Nat → List Char → List (List Char)
  | 0, l => [l]
  | fuel + 1, l =>
    match splitAux sep l with
    | (p, none) => [p]
    | (p, some rest) => p :: splitOnGo sep fuel rest

/-- Python `s.split(sep)`. -/
def splitOn (sep l : List Char) : List (List Char) :=
  splitOnGo sep (l.length + 1) l

/-- `[t.strip() for t in definition.split(sep) if t.strip()]`. -/
def filteredSplitOn (sep l : List Char) : List (List Char) :=
  ((splitOn sep l).map pyStrip).filter (fun t => t ≠ [])

/-- The separator list of `convert_to_bidirectional.py`, in priority order. -/
def sepPriority : List (List Char) :=
  [" | ".data, "|".data, ";".data, ",".data]

/-- The separator loop of `convert_to_bidirectional.convert_stardict_to_bidirectional`:
the filtered splits on the first separator that occurs, else the empty list. -/
def firstSepCandidates (d : List Char) : List (List Char) :=
  match sepPriority.find? (fun sep => occursIn sep d) with
  | some sep => filteredSplitOn sep d
  | none => []

/-- The candidate translation list the converter actually uses:
`if not translations: translations = [definition]`. -/
def codeCandidates (d : List Char) : List (List Char) :=
  let t := firstSepCandidates d
  if t = [] then [d] else t

/-- Modelled from the spec's words, for comparison with `codeCandidates`:
"Split the cleaned text on the first separator found, trying in priority
order ...; if no separator is present, treat the whole cleaned string as a
single candidate." -/
def specCandidates (d : List Char) : List (List Char) :=
  match sepPriority.find? (fun sep => occursIn sep d) with
  | some sep => filteredSplitOn sep d
  | none => [d]

/-- The per-source-row body of
`convert_to_bidirectional.convert_stardict_to_bidirectional` (lines 89-125):
skip null/blank texts, emit the forward row, then one reverse row per
candidate translation that is non-empty and differs from the word. -/
def convertEntryRows (srcLang tgtLang : List Char) (p : List Char × List Char) :
    List Row :=
  if p.1 = [] ∨ p.2 = [] then []
  else
    let word := pyStrip p.1
    let defn := pyStrip p.2
    if word = [] ∨ defn = [] then []
    else
      ⟨word, defn, "forward".data, srcLang, tgtLang⟩ ::
        ((codeCandidates defn).filter (fun t => t ≠ [] ∧ t ≠ word)).map
          (fun t => ⟨t, word, "reverse".data, tgtLang, srcLang⟩)

/-- All rows `convert_to_bidirectional.convert_stardict_to_bidirectional`
inserts for a fetched `(word, definition)` list. -/
def convertRows (entries : List (List Char × List Char))
    (srcLang tgtLang : List Char) : List Row :=
  entries.flatMap (convertEntryRows srcLang tgtLang)

/-- The rows `create_bidirectional_packs.create_bidirectional_database`
inserts (lines 102-117): the forward entries with `('forward', src, tgt)`
and the reverse entries with `('reverse', tgt, src)`. -/
def createRows (fwd rev : List (List Char × List Char))
    (srcLang tgtLang : List Char) : List Row :=
  fwd.map (fun p => ⟨p.1, p.2, "forward".data, srcLang, tgtLang⟩) ++
    rev.map (fun p => ⟨p.1, p.2, "reverse".data, tgtLang, srcLang⟩)

/-- Python `str.isalpha` restricted to the Latin-1 range: ASCII letters plus
the Latin-1 letters `0xC0`-`0xFF` without the two operator signs. -/
def pyIsAlpha (c : Char) : Bool :=
  ('A' ≤ c && c ≤ 'Z') || ('a' ≤ c && c ≤ 'z') ||
  (0xC0 ≤ c.toNat && c.toNat ≤ 0xFF && c.toNat ≠ 0xD7 && c.toNat ≠ 0xF7) ||
  c.toNat = 0xAA || c.toNat = 0xB5 || c.toNat = 0xBA

/-- `word.isalpha()`: non-empty and all alphabetic. -/
def isAlphaStr (w : List Char) : Bool :=
  !w.isEmpty && w.all pyIsAlpha

/-- `word.isdigit()`: non-empty and all decimal digits (Python's `isdigit`
additionally accepts a few compatibility digit characters outside Nd). -/
def isDigitStr (w : List Char) : Bool :=
  !w.isEmpty && w.all isDigitA

/-- The accented characters `create_bidirectional_packs.extract_reverse_translations`
checks for when the target language is English. -/
def accentChars : List Char :=
  ['ä', 'ö', 'ü', 'ß', 'ñ', 'á', 'é', 'í', 'ó', 'ú']

/-- The per-candidate keep test of `extract_reverse_translations`: length
greater than 2, not a digit string, alphabetic, and — only when the target
language is English — free of the ten listed accented characters. -/
def candKeep (targetLang w : List Char) : Bool :=
  w.length > 2 && !isDigitStr w && isAlphaStr w &&
    (targetLang ≠ "en".data || accentChars.all (fun a => !w.contains a))

/-- `create_bidirectional_packs.extract_reverse_translations`: strip HTML
tags, split cumulatively on `;`, `|`, `,` and newline, strip each piece,
keep the pieces passing `candKeep`, and return at most the first 10. -/
def extractReverse (definition targetLang : List Char) : List (List Char) :=
  let cleanD := stripDelims '<' '>' definition
  let words :=
    [[';'], ['|'], [','], ['\n']].foldl
      (fun ws sep => ws.flatMap (fun w => splitOn sep w)) [cleanD]
  (((words.map pyStrip).filter (candKeep targetLang)).take 10)

/-- The same extraction with the English accent filter never applied; used to
state that for non-English targets no language filter is in effect. -/
def extractReverseUnfiltered (definition : List Char) : List (List Char) :=
  let cleanD := stripDelims '<' '>' definition
  let words :=
    [[';'], ['|'], [','], ['\n']].foldl
      (fun ws sep => ws.flatMap (fun w => splitOn sep w)) [cleanD]
  (((words.map pyStrip).filter
      (fun w => w.length > 2 && !isDigitStr w && isAlphaStr w)).take 10)

/-- The direction/language invariant for one pack: forward rows carry the
nominal pair, reverse rows the swapped pair, and no third direction exists. -/
def rowConsistent (srcLang tgtLang : List Char) (r : Row) : Prop :=
  (r.direction = "forward".data ∧ r.sourceLanguage = srcLang ∧
    r.targetLanguage = tgtLang) ∨
  (r.direction = "reverse".data ∧ r.sourceLanguage = tgtLang ∧
    r.targetLanguage = srcLang)

/-- Claim C4: in every database produced by the converters, forward rows
carry the pack's `(source, target)` pair, reverse rows the swapped pair, and
no row carries a direction other than `'forward'` or `'reverse'`. -/
theorem direction_language_consistent (srcLang tgtLang : List Char) :
    (∀ entries r, r ∈ convertRows entries srcLang tgtLang →
      rowConsistent srcLang tgtLang r) ∧
    (∀ fwd rev r, r ∈ createRows fwd rev srcLang tgtLang →
      rowConsistent srcLang tgtLang r) := by
  constructor
  · intro entries r hr
    rw [convertRows, List.mem_flatMap] at hr
    obtain ⟨e, -, hr⟩ := hr
    rw [convertEntryRows] at hr
    split at hr
    · simp at hr
    · simp only [] at hr
      split at hr
      · simp at hr
      · rcases List.mem_cons.mp hr with h | h
        · subst h
          exact Or.inl ⟨rfl, rfl, rfl⟩
        · obtain ⟨t, -, ht⟩ := List.mem_map.mp h
          subst ht
          exact Or.inr ⟨rfl, rfl, rfl⟩
  · intro fwd rev r hr
    rw [createRows] at hr
    rcases List.mem_append.mp hr with h | h
    · obtain ⟨p, -, hp⟩ := List.mem_map.mp h
      subst hp
      exact Or.inl ⟨rfl, rfl, rfl⟩
    · obtain ⟨p, -, hp⟩ := List.mem_map.mp h
      subst hp
      exact Or.inr ⟨rfl, rfl, rfl⟩

/-- Witness for C4 at a concrete entry list and row. -/
theorem direction_language_consistent_witness :
    rowConsistent "de".data "en".data
      ⟨"ab".data, "cd".data, "forward".data, "de".data, "en".data⟩ ∧
    rowConsistent "de".data "en".data
      ⟨"cd".data, "ab".data, "reverse".data, "en".data, "de".data⟩ :=
  ⟨(direction_language_consistent "de".data "en".data).1
      [("ab".data, "cd".data)] _ (by decide),
   (direction_language_consistent "de".data "en".data).1
      [("ab".data, "cd".data)] _ (by decide)⟩

/-- Counterexample to claim C5 as stated: in `","` the separator `","`
occurs, yet the converter's candidate list is not that separator's splits
(the splits all strip to empty and the whole-text fallback fires). -/
theorem split_allempty_fallback :
    codeCandidates ",".data ≠ specCandidates ",".data ∧
    occursIn ",".data ",".data = true := by decide

/-- Claim C5 (amended): the candidate list is the filtered splits on the
first separator (in priority order `" | "`, `"|"`, `";"`, `","`) that occurs
in the text, except that when no separator occurs — or when every split of
the selected separator strips to empty — the whole text is the single
candidate. -/
theorem candidate_split_priority (d : List Char) :
    (sepPriority.find? (fun sep => occursIn sep d) = none →
      codeCandidates d = [d]) ∧
    (∀ sep, sepPriority.find? (fun sep => occursIn sep d) = some sep →
      (filteredSplitOn sep d ≠ [] → codeCandidates d = filteredSplitOn sep d) ∧
      (filteredSplitOn sep d = [] → codeCandidates d = [d])) := by
  constructor
  · intro h
    rw [codeCandidates, firstSepCandidates, h]
    simp
  · intro sep h
    constructor
    · intro hne
      rw [codeCandidates, firstSepCandidates, h]
      simp [hne]
    · intro he
      rw [codeCandidates, firstSepCandidates, h]
      simp [he]

/-- Witness for C5 at concrete inputs: a comma-separated text splits on the
comma, and a separator-free text is its own single candidate. -/
theorem candidate_split_priority_witness :
    codeCandidates "a,b".data = filteredSplitOn ",".data "a,b".data ∧
    codeCandidates "ab".data = ["ab".data] :=
  ⟨((candidate_split_priority "a,b".data).2 ",".data (by decide)).1 (by decide),
   (candidate_split_priority "ab".data).1 (by decide)⟩

/-- Counterexample to claim C6 as stated: one source record whose definition
holds eleven comma-separated candidates makes
`convert_to_bidirectional.convert_stardict_to_bidirectional` emit eleven
reverse rows — more than 10. -/
theorem reverse_fanout_uncapped :
    ¬ ((convertRows [("w".data, "b1,b2,b3,b4,b5,b6,b7,b8,b9,bA,bB".data)]
          "de".data "en".data).countP
        (fun r => r.direction == "reverse".data) ≤ 10) := by decide

/-- Claim C6 (amended): the 10-entry cap on reverse candidates applies in
`create_bidirectional_packs.extract_reverse_translations`, whose result never
exceeds 10 candidates per source record; `convert_to_bidirectional.py`'s
converter emits one reverse row per candidate with no cap. -/
theorem extract_reverse_cap (definition targetLang : List Char) :
    (extractReverse definition targetLang).length ≤ 10 := by
  rw [extractReverse]
  simp only [List.length_take]
  omega

/-- Counterexample to claim C7 as stated: with target language English, the
candidate `"très"` contains the non-ASCII accented Latin letter `'è'` and is
nevertheless kept (only ten specific accented characters are filtered). -/
theorem accent_filter_miss :
    extractReverse "très".data "en".data = ["très".data] ∧
    'è' ∈ "très".data ∧ 0x80 ≤ 'è'.toNat ∧ pyIsAlpha 'è' = true := by decide

/-- Claim C7 (amended): with target language English, exactly the candidates
containing one of the ten characters `ä ö ü ß ñ á é í ó ú` are dropped (other
accented characters pass); for any other target language the accent filter is
not applied at all. -/
theorem accent_filter_exact :
    (∀ d w, w ∈ extractReverse d "en".data →
      ∀ a ∈ accentChars, ¬ a ∈ w) ∧
    (∀ d t, t ≠ "en".data →
      extractReverse d t = extractReverseUnfiltered d) := by
  constructor
  · intro d w hw a ha hmem
    rw [extractReverse] at hw
    have hw' := (List.take_sublist _ _).mem hw
    have hk := List.of_mem_filter hw'
    rw [candKeep] at hk
    simp only [Bool.and_eq_true] at hk
    have hacc := hk.2
    rw [Bool.or_eq_true] at hacc
    rcases hacc with h | h
    · simp at h
    · rw [List.all_eq_true] at h
      have := h a ha
      simp at this
      exact this hmem
  · intro d t ht
    rw [extractReverse, extractReverseUnfiltered]
    congr 1
    apply List.filter_congr
    intro w _
    rw [candKeep]
    have : (decide (t ≠ "en".data)) = true := by simpa using ht
    rw [this]
    simp

/-- Witness for C7 at concrete inputs. -/
theorem accent_filter_exact_witness :
    (¬ 'ä' ∈ "haus".data) ∧
    extractReverse "chat".data "fr".data = extractReverseUnfiltered "chat".data :=
  ⟨accent_filter_exact.1 "haus".data "haus".data (by decide) 'ä' (by decide),
   accent_filter_exact.2 "chat".data "fr".data (by decide)⟩

/-- Claim C3: content decoding never raises — for every byte blob the
fallible decode chain returns a value (the one the total model computes),
and when strict UTF-8 fails the Latin-1 fallback supplies the result. -/
theorem decode_never_raises (data : List Nat) (h : ∀ b ∈ data, b < 256) :
    readDictContentE data = some (readDictContent data) ∧
    (utf8Decode data = none →
      readDictContent data = pyStrip (latin1Decode data)) := by
  constructor
  · rw [readDictContentE, readDictContent]
    cases hu : utf8Decode data with
    | some s => rfl
    | none =>
      have : data.all (fun b => b < 256) = true := by
        rw [List.all_eq_true]
        intro b hb
        simpa using h b hb
      simp [this]
  · intro hu
    rw [readDictContent, hu]

/-- Witness for C3: a blob whose strict UTF-8 decode fails still decodes. -/
theorem decode_never_raises_witness :
    readDictContentE [255, 104, 105] = some (readDictContent [255, 104, 105]) ∧
    readDictContent [255, 104, 105] = pyStrip (latin1Decode [255, 104, 105]) :=
  ⟨(decode_never_raises [255, 104, 105] (by decide)).1,
   (decode_never_raises [255, 104, 105] (by decide)).2 (by decide)⟩

/-- `pyStrip` removes a fully-whitespace layer from each end and nothing else. -/
theorem pyStrip_decomp (l : List Char) :
    ∃ pre suf, l = pre ++ pyStrip l ++ suf ∧
      pre.all pyIsSpace = true ∧ suf.all pyIsSpace = true := by
  refine ⟨l.takeWhile pyIsSpace,
    ((l.dropWhile pyIsSpace).reverse.takeWhile pyIsSpace).reverse, ?_, ?_, ?_⟩
  · have h1 : (l.dropWhile pyIsSpace).reverse =
        (l.dropWhile pyIsSpace).reverse.takeWhile pyIsSpace ++
          (l.dropWhile pyIsSpace).reverse.dropWhile pyIsSpace :=
      (List.takeWhile_append_dropWhile _ _).symm
    have hmid : l.dropWhile pyIsSpace =
        pyStrip l ++ ((l.dropWhile pyIsSpace).reverse.takeWhile pyIsSpace).reverse := by
      rw [pyStrip]
      conv_lhs => rw [← List.reverse_reverse (l.dropWhile pyIsSpace), h1]
      rw [List.reverse_append]
    calc l = l.takeWhile pyIsSpace ++ l.dropWhile pyIsSpace :=
          (List.takeWhile_append_dropWhile _ _).symm
      _ = l.takeWhile pyIsSpace ++ (pyStrip l ++
            ((l.dropWhile pyIsSpace).reverse.takeWhile pyIsSpace).reverse) := by
          rw [← hmid]
      _ = l.takeWhile pyIsSpace ++ pyStrip l ++
            ((l.dropWhile pyIsSpace).reverse.takeWhile pyIsSpace).reverse :=
          (List.append_assoc _ _ _).symm
  · rw [List.all_eq_true]
    intro x hx
    exact List.mem_takeWhile_imp hx
  · rw [List.all_eq_true]
    intro x hx
    exact List.mem_takeWhile_imp (List.mem_reverse.mp hx)

/-- Claim C10: the resolved definition is the decoded text with only leading
and trailing whitespace removed; in particular a trailing NUL character —
which is not whitespace — is retained. -/
theorem definition_trim_whitespace_only (data : List Nat) :
    (∃ pre suf, decodeDict data = pre ++ readDictContent data ++ suf ∧
      pre.all pyIsSpace = true ∧ suf.all pyIsSpace = true) ∧
    ((decodeDict data).getLast? = some '\x00' →
      (readDictContent data).getLast? = some '\x00') := by
  have heq : readDictContent data = pyStrip (decodeDict data) := by
    rw [readDictContent, decodeDict]
    cases utf8Decode data <;> rfl
  obtain ⟨pre, suf, hdec, hpre, hsuf⟩ := pyStrip_decomp (decodeDict data)
  rw [← heq] at hdec
  constructor
  · exact ⟨pre, suf, hdec, hpre, hsuf⟩
  · intro hlast
    rw [hdec] at hlast
    have hnul : pyIsSpace '\x00' = false := by decide
    have hsufnil : suf = [] := by
      by_contra hne
      rw [List.getLast?_append_of_ne_nil _ hne] at hlast
      have := List.mem_of_mem_getLast? hlast
      rw [List.all_eq_true] at hsuf
      have := hsuf _ this
      rw [hnul] at this
      exact Bool.false_ne_true this
    subst hsufnil
    rw [List.append_nil] at hlast
    have hmidne : readDictContent data ≠ [] := by
      intro hmid
      rw [hmid, List.append_nil] at hlast
      have := List.mem_of_mem_getLast? hlast
      rw [List.all_eq_true] at hpre
      have := hpre _ this
      rw [hnul] at this
      exact Bool.false_ne_true this
    rw [List.getLast?_append_of_ne_nil _ hmidne] at hlast
    exact hlast

/-- Witness for C10: a blob ending in NUL bytes keeps them after stripping. -/
theorem definition_trim_whitespace_only_witness :
    (decodeDict [99, 97, 116, 0, 0, 0]).getLast? = some '\x00' ∧
    (readDictContent [99, 97, 116, 0, 0, 0]).getLast? = some '\x00' :=
  ⟨by decide, (definition_trim_whitespace_only [99, 97, 116, 0, 0, 0]).2 (by decide)⟩

/-- Reading a NUL-terminated word consumes exactly the word and terminator. -/
theorem readWord_append (w r : List Nat) (h : ¬ 0 ∈ w) :
    readWord (w ++ 0 :: r) = (w, r) := by
  induction w with
  | nil => simp [readWord]
  | cons b bs ih =>
    have hb : b ≠ 0 := fun hb => h (hb ▸ List.mem_cons_self b bs)
    have hbs : ¬ 0 ∈ bs := fun hm => h (List.mem_cons_of_mem b hm)
    simp [readWord, hb, ih hbs]

/-- The stream left over by `readWord` is never longer than the input. -/
theorem readWord_snd_le (l : List Nat) : (readWord l).2.length ≤ l.length := by
  induction l with
  | nil => simp [readWord]
  | cons b bs ih =>
    rw [readWord]
    split
    · simp
    · simpa using Nat.le_succ_of_le ih

/-- If a non-empty word was read, the remaining stream is strictly shorter. -/
theorem readWord_snd_lt (l : List Nat) (h : (readWord l).1 ≠ []) :
    (readWord l).2.length < l.length := by
  cases l with
  | nil => simp [readWord] at h
  | cons b bs =>
    rw [readWord]
    split
    · rw [readWord] at h
      simp_all
    · simpa using Nat.lt_succ_of_le (readWord_snd_le bs)

/-- `readIdxGo` does not depend on the fuel once it exceeds the input length. -/
theorem readIdxGo_fuel (n : Nat) : ∀ f g l, l.length ≤ n →
    l.length < f → l.length < g → readIdxGo f l = readIdxGo g l := by
  induction n with
  | zero =>
    intro f g l hn hf hg
    have hl : l = [] := List.length_eq_zero.mp (Nat.le_zero.mp hn)
    subst hl
    obtain ⟨f', rfl⟩ : ∃ k, f = k + 1 := ⟨f - 1, by omega⟩
    obtain ⟨g', rfl⟩ : ∃ k, g = k + 1 := ⟨g - 1, by omega⟩
    rw [readIdxGo, readIdxGo]
    simp [readWord]
  | succ n ih =>
    intro f g l hn hf hg
    obtain ⟨f', rfl⟩ : ∃ k, f = k + 1 := ⟨f - 1, by omega⟩
    obtain ⟨g', rfl⟩ : ∃ k, g = k + 1 := ⟨g - 1, by omega⟩
    rw [readIdxGo, readIdxGo]
    by_cases hwb : (readWord l).1 = []
    · simp [hwb]
    · have hlt : (readWord l).2.length < l.length := readWord_snd_lt l hwb
      simp only [if_neg hwb]
      cases hu : utf8Decode (readWord l).1 with
      | none =>
        exact ih f' g' (readWord l).2 (by omega) (by omega) (by omega)
      | some w =>
        by_cases h8 : 8 ≤ (readWord l).2.length
        · simp only [if_pos h8]
          have hdl : ((readWord l).2.drop 8).length = (readWord l).2.length - 8 :=
            List.length_drop 8 _
          rw [ih f' g' ((readWord l).2.drop 8) (by omega) (by omega) (by omega)]
        · simp only [if_neg h8]

/-- Counterexample to claim C2 as stated: an `.idx` stream starting with an
undecodable one-byte word, its terminator and its 8 offset/size bytes,
followed by the well-formed record `("ok", 0, 3)`, parses to the empty list —
the record occurring after the undecodable one does not appear at all. -/
theorem idx_decode_failure_loses_record :
    readIdx ([255, 0] ++ be4 1 ++ be4 2 ++ ([111, 107, 0] ++ be4 0 ++ be4 3)) = [] ∧
    readIdx ([111, 107, 0] ++ be4 0 ++ be4 3) = [(['o', 'k'], 0, 3)] := by
  decide

/-- Claim C2 (amended): on a UTF-8 decode failure the parser discards the
word token and resumes scanning at the byte immediately after the NUL
terminator — without consuming the record's 8 offset/size bytes — so the
parse continues as if the stream began at those bytes, and well-formed
records after the undecodable one are not guaranteed to appear. -/
theorem idx_decode_failure_resume (w rest : List Nat) (h1 : w ≠ [])
    (h2 : ¬ 0 ∈ w) (h3 : utf8Decode w = none) :
    readIdx (w ++ 0 :: rest) = readIdx rest := by
  rw [readIdx, readIdx, readIdxGo]
  rw [readWord_append w rest h2]
  simp only [if_neg h1, h3]
  have h1' : 1 ≤ w.length := List.length_pos.mpr h1
  have hlen : (w ++ 0 :: rest).length = w.length + rest.length + 1 := by
    simp [List.length_append]
    omega
  exact readIdxGo_fuel rest.length _ _ rest le_rfl (by omega) (by omega)

/-- Witness for the amended C2: resuming right after the terminator on the
counterexample stream re-reads the offset/size bytes as the next word. -/
theorem idx_decode_failure_resume_witness :
    readIdx ([255] ++ 0 :: (be4 1 ++ be4 2 ++ ([111, 107, 0] ++ be4 0 ++ be4 3))) =
      readIdx (be4 1 ++ be4 2 ++ ([111, 107, 0] ++ be4 0 ++ be4 3)) :=
  idx_decode_failure_resume [255] _ (by decide) (by decide) (by decide)

/-- Big-endian encode/decode round-trip for 32-bit values. -/
theorem be4dec_be4 (n : Nat) (h : n < 2 ^ 32) : be4dec (be4 n) = n := by
  rw [be4, be4dec]
  omega

/-- Taking 4 bytes from a `be4`-headed stream yields the encoding. -/
theorem take4_be4 (x : Nat) (r : List Nat) : (be4 x ++ r).take 4 = be4 x := by
  rw [be4]
  rfl

/-- Dropping 4 bytes from a `be4`-headed stream yields the remainder. -/
theorem drop4_be4 (x : Nat) (r : List Nat) : (be4 x ++ r).drop 4 = r := by
  rw [be4]
  rfl

/-- Length of a synthetic index stream. -/
theorem buildIdx_length (w p : List Nat) (rs : List (List Nat × List Nat))
    (off : Nat) : (buildIdx ((w, p) :: rs) off).length =
      w.length + 9 + (buildIdx rs (off + p.length)).length := by
  rw [buildIdx]
  simp [be4, List.length_append]
  omega

/-- Parsing a synthetic index built from well-formed records yields exactly
the expected tuples, for any sufficient fuel. -/
theorem readIdxGo_build (recs : List (List Nat × List Nat)) :
    ∀ off f, (∀ r ∈ recs, r.1 ≠ [] ∧ ¬ 0 ∈ r.1 ∧ (utf8Decode r.1).isSome = true) →
    off + dictLen recs < 2 ^ 32 → (buildIdx recs off).length < f →
    readIdxGo f (buildIdx recs off) = expectedIdx recs off := by
  induction recs with
  | nil =>
    intro off f hw hoff hf
    obtain ⟨f', rfl⟩ : ∃ k, f = k + 1 := ⟨f - 1, by omega⟩
    rw [buildIdx, expectedIdx, readIdxGo]
    simp [readWord]
  | cons r rs ih =>
    obtain ⟨w, p⟩ := r
    intro off f hw hoff hf
    obtain ⟨hwne, hw0, hwdec⟩ := hw (w, p) (List.mem_cons_self _ _)
    obtain ⟨cw, hcw⟩ := Option.isSome_iff_exists.mp hwdec
    obtain ⟨f', rfl⟩ : ∃ k, f = k + 1 := ⟨f - 1, by omega⟩
    rw [buildIdx, readIdxGo, readWord_append w _ hw0]
    simp only [if_neg hwne, hcw]
    have hlen8 : 8 ≤ (be4 off ++ be4 p.length ++ buildIdx rs (off + p.length)).length := by
      simp [be4, List.length_append]
    rw [if_pos hlen8]
    have hassoc : be4 off ++ be4 p.length ++ buildIdx rs (off + p.length) =
        be4 off ++ (be4 p.length ++ buildIdx rs (off + p.length)) :=
      List.append_assoc _ _ _
    rw [hassoc, take4_be4, drop4_be4]
    have hdrop8 : (be4 off ++ (be4 p.length ++ buildIdx rs (off + p.length))).drop 8 =
        buildIdx rs (off + p.length) := by
      rw [be4, be4]
      rfl
    rw [hdrop8, take4_be4]
    rw [expectedIdx]
    have hdl : dictLen ((w, p) :: rs) = p.length + dictLen rs := rfl
    have hoff1 : off < 2 ^ 32 := by omega
    have hoff2 : p.length < 2 ^ 32 := by omega
    rw [be4dec_be4 off hoff1, be4dec_be4 p.length hoff2, hcw]
    have hfl := buildIdx_length w p rs off
    rw [ih (off + p.length) f'
      (fun r hr => hw r (List.mem_cons_of_mem _ hr)) (by omega) (by omega)]
    rw [Option.getD_some]

/-- Resolving the expected offsets and sizes against a dict payload placed
after an arbitrary preamble returns exactly the written payload bytes. -/
theorem slice_expected (recs : List (List Nat × List Nat)) :
    ∀ pre : List Nat,
    (expectedIdx recs pre.length).map
        (fun e => sliceBytes (pre ++ buildDict recs) e.2.1 e.2.2) =
      recs.map (fun r => r.2) := by
  induction recs with
  | nil => intro pre; rfl
  | cons r rs ih =>
    obtain ⟨w, p⟩ := r
    intro pre
    rw [buildDict, expectedIdx, List.map_cons, List.map_cons]
    have hhead : sliceBytes (pre ++ (p ++ buildDict rs)) pre.length p.length = p := by
      rw [sliceBytes, List.drop_left]
      exact List.take_left p (buildDict rs)
    rw [hhead]
    have hlen : pre.length + p.length = (pre ++ p).length := (List.length_append _ _).symm
    have happ : pre ++ (p ++ buildDict rs) = (pre ++ p) ++ buildDict rs :=
      (List.append_assoc _ _ _).symm
    rw [hlen, happ, ih (pre ++ p)]

/-- The expected index has one tuple per record. -/
theorem expectedIdx_length (recs : List (List Nat × List Nat)) (off : Nat) :
    (expectedIdx recs off).length = recs.length := by
  induction recs generalizing off with
  | nil => rfl
  | cons r rs ih =>
    obtain ⟨w, p⟩ := r
    rw [expectedIdx, List.length_cons, List.length_cons, ih]

/-- Claim C1: for a synthetic `.idx`/`.dict` pair of N well-formed records,
the index parser yields exactly the N `(word, offset, size)` tuples in file
order, and resolving each offset/size against the `.dict` payload returns
exactly the bytes written for that record. -/
theorem stardict_roundtrip (recs : List (List Nat × List Nat))
    (hw : ∀ r ∈ recs, r.1 ≠ [] ∧ ¬ 0 ∈ r.1 ∧ (utf8Decode r.1).isSome = true)
    (hlen : dictLen recs < 2 ^ 32) :
    readIdx (buildIdx recs 0) = expectedIdx recs 0 ∧
    (readIdx (buildIdx recs 0)).length = recs.length ∧
    (readIdx (buildIdx recs 0)).map
        (fun e => sliceBytes (buildDict recs) e.2.1 e.2.2) =
      recs.map (fun r => r.2) := by
  have hmain : readIdx (buildIdx recs 0) = expectedIdx recs 0 := by
    rw [readIdx]
    exact readIdxGo_build recs 0 _ hw (by omega) (by omega)
  refine ⟨hmain, ?_, ?_⟩
  · rw [hmain]
    exact expectedIdx_length recs 0
  · rw [hmain]
    have := slice_expected recs []
    simpa using this

/-- Witness records for C1: two well-formed records. -/
def recsW : List (List Nat × List Nat) :=
  [([99, 104, 97, 116], [99, 97, 116, 0, 0, 0]), ([111, 107], [104, 105])]

/-- Witness for C1 at the concrete two-record pair. -/
theorem stardict_roundtrip_witness :
    readIdx (buildIdx recsW 0) = expectedIdx recsW 0 ∧
    (readIdx (buildIdx recsW 0)).length = recsW.length ∧
    (readIdx (buildIdx recsW 0)).map
        (fun e => sliceBytes (buildDict recsW) e.2.1 e.2.2) =
      recsW.map (fun r => r.2) :=
  stardict_roundtrip recsW (by decide) (by decide)

/-- Counterexample to claim C9 as stated: converting the single record
`"chat"` at offset 0 size 6 with dict bytes `cat\x00\x00\x00` does not
produce the rows `("chat","cat",...)`/`("cat","chat",...)` — `.strip()`
removes only whitespace, and NUL is not whitespace, so the gloss keeps the
three trailing NUL characters. -/
theorem basic_pair_scenario_refuted :
    frenchConvert ([99, 104, 97, 116] ++ [0] ++ be4 0 ++ be4 6)
        [99, 97, 116, 0, 0, 0] ≠
      ([⟨"chat".data, "cat".data, "forward".data, "fr".data, "en".data⟩],
       [⟨"cat".data, "chat".data, "reverse".data, "en".data, "fr".data⟩]) := by
  decide

/-- Claim C9 (amended): the scenario yields exactly one forward row
`("chat", "cat\x00\x00\x00", 'forward', 'fr', 'en')` and one reverse row
`("cat\x00\x00\x00", "chat", 'reverse', 'en', 'fr')` — the definition keeps
its trailing NUL padding because trimming removes only whitespace. -/
theorem basic_pair_scenario_actual :
    frenchConvert ([99, 104, 97, 116] ++ [0] ++ be4 0 ++ be4 6)
        [99, 97, 116, 0, 0, 0] =
      ([⟨"chat".data, "cat\x00\x00\x00".data, "forward".data, "fr".data, "en".data⟩],
       [⟨"cat\x00\x00\x00".data, "chat".data, "reverse".data, "en".data, "fr".data⟩]) := by
  decide

/-- `afterCh` fails exactly when the character is absent. -/
theorem afterCh_none_iff (t : Char) (l : List Char) :
    afterCh t l = none ↔ ¬ t ∈ l := by
  induction l with
  | nil => simp [afterCh]
  | cons c cs ih =>
    rw [afterCh]
    by_cases hc : c = t
    · subst hc
      simp
    · rw [if_neg hc]
      rw [ih]
      simp [Ne.symm hc]

/-- A successful `afterCh` splits the stream at the first occurrence. -/
theorem afterCh_some (t : Char) (l r : List Char) (h : afterCh t l = some r) :
    ∃ p, l = p ++ t :: r := by
  induction l generalizing r with
  | nil => simp [afterCh] at h
  | cons c cs ih =>
    rw [afterCh] at h
    by_cases hc : c = t
    · rw [if_pos hc] at h
      obtain rfl := Option.some_injective _ h
      exact ⟨[], by rw [hc]; rfl⟩
    · rw [if_neg hc] at h
      obtain ⟨p, hp⟩ := ih r h
      exact ⟨c :: p, by rw [hp]; rfl⟩

/-- The remainder after `afterCh` is strictly shorter. -/
theorem afterCh_length (t : Char) (l r : List Char) (h : afterCh t l = some r) :
    r.length < l.length := by
  obtain ⟨p, hp⟩ := afterCh_some t l r h
  rw [hp]
  simp [List.length_append]
  omega

/-- `delimRem` fails exactly when no closing match exists: empty remainder,
immediate closing character, or no closing character at all. -/
theorem delimRem_none_iff (t : Char) (l : List Char) :
    delimRem t l = none ↔ (l = [] ∨ l.head? = some t ∨ ¬ t ∈ l) := by
  cases l with
  | nil => simp [delimRem]
  | cons c cs =>
    rw [delimRem]
    by_cases hc : c = t
    · subst hc
      simp
    · rw [if_neg hc]
      rw [afterCh_none_iff]
      simp [hc, Ne.symm hc]

/-- A successful `delimRem` splits the stream at the closing character. -/
theorem delimRem_some (t : Char) (l r : List Char) (h : delimRem t l = some r) :
    (∃ p, l = p ++ t :: r) ∧ r.length < l.length := by
  cases l with
  | nil => simp [delimRem] at h
  | cons c cs =>
    rw [delimRem] at h
    by_cases hc : c = t
    · rw [if_pos hc] at h
      simp at h
    · rw [if_neg hc] at h
      obtain ⟨p, hp⟩ := afterCh_some t cs r h
      refine ⟨⟨c :: p, by rw [hp]; rfl⟩, ?_⟩
      have := afterCh_length t cs r h
      simp
      omega

/-- No un-escaped delimiter pattern `o[^t]+t` occurs in `l`: after every
occurrence of the opening character, either nothing follows, or the closing
character follows immediately, or the closing character never occurs. -/
def NoDelim (o t : Char) (l : List Char) : Prop :=
  ∀ a b, l = a ++ o :: b → b = [] ∨ b.head? = some t ∨ ¬ t ∈ b

theorem noDelim_nil (o t : Char) : NoDelim o t [] := by
  intro a b hab
  exact absurd hab (by simp)

theorem noDelim_tail (o t c : Char) (cs : List Char)
    (h : NoDelim o t (c :: cs)) : NoDelim o t cs := by
  intro a b hab
  exact h (c :: a) b (by rw [hab]; rfl)

/-- Characterization of `NoDelim` on a cons cell via `delimRem`. -/
theorem noDelim_cons_iff (o t c : Char) (cs : List Char) :
    NoDelim o t (c :: cs) ↔ ((c = o → delimRem t cs = none) ∧ NoDelim o t cs) := by
  constructor
  · intro h
    refine ⟨fun hc => ?_, noDelim_tail o t c cs h⟩
    rw [delimRem_none_iff]
    exact h [] cs (by rw [hc]; rfl)
  · rintro ⟨hhead, htail⟩
    intro a b hab
    cases a with
    | nil =>
      simp at hab
      obtain ⟨hco, hcs⟩ := hab
      subst hcs
      have := hhead hco
      rw [delimRem_none_iff] at this
      exact this
    | cons x xs =>
      simp at hab
      exact htail xs b hab.2

theorem noDelim_append_left (o t : Char) (x y : List Char)
    (h : NoDelim o t (x ++ y)) : NoDelim o t x := by
  intro a b hab
  have hx : x ++ y = a ++ o :: (b ++ y) := by
    rw [hab]
    simp
  rcases h a (b ++ y) hx with h1 | h2 | h3
  · left
    have : b.length + y.length = 0 := by
      simpa [List.length_append] using congrArg List.length h1
    exact List.length_eq_zero.mp (by omega)
  · cases b with
    | nil => exact Or.inl rfl
    | cons d ds =>
      right; left
      simpa using h2
  · right; right
    intro hmem
    exact h3 (List.mem_append.mpr (Or.inl hmem))

theorem noDelim_append_right (o t : Char) (x y : List Char)
    (h : NoDelim o t (x ++ y)) : NoDelim o t y := by
  intro a b hab
  exact h (x ++ a) b (by rw [hab]; simp)

theorem noDelim_infix (o t : Char) (u m v : List Char)
    (h : NoDelim o t (u ++ m ++ v)) : NoDelim o t m :=
  noDelim_append_left o t m v
    (noDelim_append_right o t u (m ++ v) (by rwa [← List.append_assoc]))

/-- `stripDGo` only deletes characters. -/
theorem stripDGo_mem (o t : Char) (f : Nat) (l : List Char) (x : Char)
    (h : x ∈ stripDGo o t f l) : x ∈ l := by
  induction f generalizing l with
  | zero => exact h
  | succ f ih =>
    cases l with
    | nil => simp [stripDGo] at h
    | cons c cs =>
      rw [stripDGo] at h
      by_cases hc : c = o
      · rw [if_pos hc] at h
        cases hrem : delimRem t cs with
        | some rem =>
          rw [hrem] at h
          have hx := ih rem h
          obtain ⟨⟨p, hp⟩, -⟩ := delimRem_some t cs rem hrem
          rw [hp]
          exact List.mem_cons_of_mem c
            (List.mem_append.mpr (Or.inr (List.mem_cons_of_mem t hx)))
        | none =>
          rw [hrem] at h
          rcases List.mem_cons.mp h with h' | h'
          · exact h' ▸ List.mem_cons_self c cs
          · exact List.mem_cons_of_mem c (ih cs h')
      · rw [if_neg hc] at h
        rcases List.mem_cons.mp h with h' | h'
        · exact h' ▸ List.mem_cons_self c cs
        · exact List.mem_cons_of_mem c (ih cs h')

/-- A failed `delimRem` stays failed after an unrelated delimiter strip
(provided the closing character is not the other opening character). -/
theorem delimRem_stripDGo_none (t o' t' : Char) (hto : t ≠ o') (f : Nat)
    (cs : List Char) (h : delimRem t cs = none) :
    delimRem t (stripDGo o' t' f cs) = none := by
  rw [delimRem_none_iff] at h ⊢
  rcases h with h | h | h
  · subst h
    left
    cases f <;> rfl
  · cases cs with
    | nil => simp at h
    | cons d ds =>
      right; left
      have hd : d = t := by simpa using h
      subst hd
      cases f with
      | zero => rfl
      | succ f =>
        rw [stripDGo, if_neg hto]
        rfl
  · right; right
    intro hm
    exact h (stripDGo_mem o' t' f cs t hm)

/-- The output of a delimiter strip contains no delimiter pattern. -/
theorem stripDGo_noDelim (o t : Char) (hot : o ≠ t) (f : Nat) :
    ∀ l : List Char, l.length ≤ f → NoDelim o t (stripDGo o t f l) := by
  induction f with
  | zero =>
    intro l hf
    have : l = [] := List.length_eq_zero.mp (Nat.le_zero.mp hf)
    subst this
    exact noDelim_nil o t
  | succ f ih =>
    intro l hf
    cases l with
    | nil => exact noDelim_nil o t
    | cons c cs =>
      rw [stripDGo]
      have hcs : cs.length ≤ f := by
        simp at hf
        omega
      by_cases hc : c = o
      · rw [if_pos hc]
        cases hrem : delimRem t cs with
        | some rem =>
          obtain ⟨-, hlt⟩ := delimRem_some t cs rem hrem
          exact ih rem (by omega)
        | none =>
          rw [noDelim_cons_iff]
          refine ⟨fun hco => ?_, ih cs hcs⟩
          exact delimRem_stripDGo_none t o t (Ne.symm hot) f cs hrem
      · rw [if_neg hc]
        rw [noDelim_cons_iff]
        exact ⟨fun hco => absurd hco hc, ih cs hcs⟩

/-- A stream with no delimiter pattern is a fixed point of the strip. -/
theorem stripDGo_id (o t : Char) (f : Nat) :
    ∀ l : List Char, NoDelim o t l → l.length ≤ f → stripDGo o t f l = l := by
  induction f with
  | zero => intro l _ _; rfl
  | succ f ih =>
    intro l h hf
    cases l with
    | nil => rfl
    | cons c cs =>
      rw [stripDGo]
      obtain ⟨hhead, htail⟩ := (noDelim_cons_iff o t c cs).mp h
      have hcs : cs.length ≤ f := by
        simp at hf
        omega
      by_cases hc : c = o
      · rw [if_pos hc, hhead hc, ih cs htail hcs]
      · rw [if_neg hc, ih cs htail hcs]

/-- `NoDelim` for one delimiter pair survives stripping another pair, as
long as the closing character of the first is not the opening character of
the second. -/
theorem stripDGo_preserve (o t o' t' : Char) (hto : t ≠ o') (f : Nat) :
    ∀ l : List Char, NoDelim o t l → l.length ≤ f →
      NoDelim o t (stripDGo o' t' f l) := by
  induction f with
  | zero => intro l h _; exact h
  | succ f ih =>
    intro l h hf
    cases l with
    | nil => exact noDelim_nil o t
    | cons c cs =>
      rw [stripDGo]
      obtain ⟨hhead, htail⟩ := (noDelim_cons_iff o t c cs).mp h
      have hcs : cs.length ≤ f := by
        simp at hf
        omega
      by_cases hc : c = o'
      · rw [if_pos hc]
        cases hrem : delimRem t' cs with
        | some rem =>
          obtain ⟨⟨p, hp⟩, hlt⟩ := delimRem_some t' cs rem hrem
          have hrem' : NoDelim o t rem := by
            have : cs = (p ++ [t']) ++ rem := by
              rw [hp]
              simp
            exact noDelim_append_right o t (p ++ [t']) rem (this ▸ htail)
          exact ih rem hrem' (by omega)
        | none =>
          rw [noDelim_cons_iff]
          exact ⟨fun hco => delimRem_stripDGo_none t o' t' hto f cs (hhead hco),
            ih cs htail hcs⟩
      · rw [if_neg hc]
        rw [noDelim_cons_iff]
        exact ⟨fun hco => delimRem_stripDGo_none t o' t' hto f cs (hhead hco),
          ih cs htail hcs⟩

/-- The head of a `dropWhile` result fails the predicate. -/
theorem dropWhile_head_false (p : Char → Bool) (l : List Char) (x : Char)
    (h : (l.dropWhile p).head? = some x) : p x = false := by
  have := List.head?_dropWhile_not p l
  rw [h] at this
  exact this

/-- `takeWhile` over a run of satisfying elements followed by a failing one. -/
theorem takeWhile_append_run (p : Char → Bool) (w : List Char) (x : Char)
    (r : List Char) (hw : ∀ c ∈ w, p c = true) (hx : p x = false) :
    (w ++ x :: r).takeWhile p = w := by
  induction w with
  | nil => simp [List.takeWhile_cons, hx]
  | cons c cs ih =>
    rw [List.cons_append, List.takeWhile_cons, if_pos (hw c (List.mem_cons_self c cs))]
    rw [ih (fun d hd => hw d (List.mem_cons_of_mem c hd))]

/-- `dropWhile` over a run of satisfying elements followed by a failing one. -/
theorem dropWhile_append_run (p : Char → Bool) (w : List Char) (x : Char)
    (r : List Char) (hw : ∀ c ∈ w, p c = true) (hx : p x = false) :
    (w ++ x :: r).dropWhile p = x :: r := by
  induction w with
  | nil => simp [List.dropWhile_cons, hx]
  | cons c cs ih =>
    rw [List.cons_append, List.dropWhile_cons, if_pos (hw c (List.mem_cons_self c cs))]
    exact ih (fun d hd => hw d (List.mem_cons_of_mem c hd))

/-- A word list is good when every word is non-empty and whitespace-free. -/
def goodWords (ws : List (List Char)) : Prop :=
  ∀ w ∈ ws, w ≠ [] ∧ ∀ c ∈ w, pyIsSpace c = false

/-- `pyWordsGo` on the empty stream. -/
theorem pyWordsGo_nil (f : Nat) : pyWordsGo f [] = [] := by
  cases f <;> rfl

/-- The words produced by `pyWordsGo` are non-empty and whitespace-free. -/
theorem pyWordsGo_good (f : Nat) :
    ∀ l : List Char, goodWords (pyWordsGo f l) := by
  induction f with
  | zero => intro l w hw; simp [pyWordsGo] at hw
  | succ f ih =>
    intro l
    cases l with
    | nil => intro w hw; simp [pyWordsGo_nil] at hw
    | cons c cs =>
      rw [pyWordsGo]
      by_cases hc : pyIsSpace c
      · rw [if_pos hc]
        exact ih cs
      · rw [if_neg hc]
        intro w hw
        rcases List.mem_cons.mp hw with h | h
        · subst h
          refine ⟨by simp, ?_⟩
          intro d hd
          rcases List.mem_cons.mp hd with h | h
          · subst h
            exact Bool.not_eq_true _ ▸ (by simpa using hc)
          · have := List.mem_takeWhile_imp h
            simpa using this
        · exact ih _ w h

/-- Characters of `pyWordsGo` words come from the input. -/
theorem pyWordsGo_mem (f : Nat) :
    ∀ l : List Char, ∀ w ∈ pyWordsGo f l, ∀ c ∈ w, c ∈ l := by
  induction f with
  | zero => intro l w hw; simp [pyWordsGo] at hw
  | succ f ih =>
    intro l
    cases l with
    | nil => intro w hw; simp [pyWordsGo_nil] at hw
    | cons c cs =>
      rw [pyWordsGo]
      by_cases hc : pyIsSpace c
      · rw [if_pos hc]
        intro w hw d hd
        exact List.mem_cons_of_mem c (ih cs w hw d hd)
      · rw [if_neg hc]
        intro w hw d hd
        rcases List.mem_cons.mp hw with h | h
        · subst h
          rcases List.mem_cons.mp hd with h | h
          · exact h ▸ List.mem_cons_self c cs
          · exact List.mem_cons_of_mem c
              ((List.takeWhile_sublist _).mem h)
        · have := ih _ w h d hd
          exact List.mem_cons_of_mem c ((List.dropWhile_sublist _).mem this)

/-- Characters of a space-join come from the words or are the space. -/
theorem joinSp_mem (ws : List (List Char)) (c : Char) (h : c ∈ joinSp ws) :
    (∃ w ∈ ws, c ∈ w) ∨ c = ' ' := by
  induction ws with
  | nil => simp [joinSp] at h
  | cons w ws ih =>
    cases ws with
    | nil =>
      rw [joinSp] at h
      exact Or.inl ⟨w, List.mem_cons_self _ _, h⟩
    | cons w2 ws2 =>
      have hj : joinSp (w :: w2 :: ws2) = w ++ ' ' :: joinSp (w2 :: ws2) := rfl
      rw [hj] at h
      rcases List.mem_append.mp h with h | h
      · exact Or.inl ⟨w, List.mem_cons_self _ _, h⟩
      · rcases List.mem_cons.mp h with h | h
        · exact Or.inr h
        · rcases ih h with ⟨w', hw', hc⟩ | h
          · exact Or.inl ⟨w', List.mem_cons_of_mem _ hw', hc⟩
          · exact Or.inr h

/-- Characters of the whitespace collapse come from the input or are spaces. -/
theorem collapseWs_mem (l : List Char) (c : Char) (h : c ∈ collapseWs l) :
    c ∈ l ∨ c = ' ' := by
  rw [collapseWs, pyWords] at h
  rcases joinSp_mem _ c h with ⟨w, hw, hc⟩ | h
  · exact Or.inl (pyWordsGo_mem l.length l w hw c hc)
  · exact Or.inr h

/-- A whitespace character in the collapse output is the single space. -/
theorem collapseWs_space_mem (l : List Char) (c : Char) (h : c ∈ collapseWs l)
    (hsp : pyIsSpace c = true) : c = ' ' := by
  rw [collapseWs, pyWords] at h
  rcases joinSp_mem _ c h with ⟨w, hw, hc⟩ | h
  · have := (pyWordsGo_good l.length l w hw).2 c hc
    rw [hsp] at this
    exact absurd this (by simp)
  · exact h

/-- A good word list joins to a non-empty stream. -/
theorem joinSp_ne_nil (ws : List (List Char)) (hg : goodWords ws)
    (hne : ws ≠ []) : joinSp ws ≠ [] := by
  cases ws with
  | nil => exact absurd rfl hne
  | cons w ws' =>
    cases ws' with
    | nil => exact (hg w (List.mem_cons_self _ _)).1
    | cons w2 ws2 =>
      have hj : joinSp (w :: w2 :: ws2) = w ++ ' ' :: joinSp (w2 :: ws2) := rfl
      rw [hj]
      simp

/-- Splitting the join of a good word list recovers the words. -/
theorem pyWordsGo_joinSp (ws : List (List Char)) : ∀ f, goodWords ws →
    (joinSp ws).length ≤ f → pyWordsGo f (joinSp ws) = ws := by
  induction ws with
  | nil =>
    intro f _ _
    exact pyWordsGo_nil f
  | cons w ws' ih =>
    intro f hg hf
    have hw := hg w (List.mem_cons_self _ _)
    obtain ⟨c, cw, rfl⟩ : ∃ c cw, w = c :: cw := by
      cases w with
      | nil => exact absurd rfl hw.1
      | cons c cw => exact ⟨c, cw, rfl⟩
    have hcsp : pyIsSpace c = false := hw.2 c (List.mem_cons_self _ _)
    have hcw : ∀ d ∈ cw, (!pyIsSpace d) = true := by
      intro d hd
      simp [hw.2 d (List.mem_cons_of_mem c hd)]
    cases ws' with
    | nil =>
      have hj : joinSp [c :: cw] = c :: cw := rfl
      rw [hj] at hf ⊢
      obtain ⟨f', rfl⟩ : ∃ k, f = k + 1 := ⟨f - 1, by simp at hf; omega⟩
      rw [pyWordsGo, if_neg (by simp [hcsp])]
      rw [List.takeWhile_eq_self_iff.mpr hcw]
      rw [List.dropWhile_eq_nil_iff.mpr hcw]
      rw [pyWordsGo_nil]
    | cons w2 ws2 =>
      have hj : joinSp ((c :: cw) :: w2 :: ws2) =
          (c :: cw) ++ ' ' :: joinSp (w2 :: ws2) := rfl
      rw [hj] at hf ⊢
      have hlen : (c :: cw).length + (1 + (joinSp (w2 :: ws2)).length) ≤ f := by
        simp [List.length_append] at hf ⊢
        omega
      obtain ⟨f1, rfl⟩ : ∃ k, f = k + 1 := ⟨f - 1, by simp at hlen; omega⟩
      rw [List.cons_append, pyWordsGo, if_neg (by simp [hcsp])]
      rw [takeWhile_append_run _ cw ' ' _ hcw (by decide)]
      rw [dropWhile_append_run _ cw ' ' _ hcw (by decide)]
      obtain ⟨f2, rfl⟩ : ∃ k, f1 = k + 1 := ⟨f1 - 1, by simp at hlen; omega⟩
      rw [pyWordsGo, if_pos (by decide)]
      rw [ih f2 (fun v hv => hg v (List.mem_cons_of_mem _ hv)) (by simp at hlen; omega)]

/-- Whitespace collapsing is idempotent. -/
theorem collapseWs_idem (l : List Char) :
    collapseWs (collapseWs l) = collapseWs l := by
  rw [collapseWs, collapseWs, pyWords, pyWords]
  rw [pyWordsGo_joinSp (pyWordsGo l.length l) _ (pyWordsGo_good l.length l) le_rfl]

/-- The join of a good word list starts with a non-space character. -/
theorem joinSp_head_false (ws : List (List Char)) (hg : goodWords ws)
    (c : Char) (h : (joinSp ws).head? = some c) : pyIsSpace c = false := by
  cases ws with
  | nil => simp [joinSp] at h
  | cons w ws' =>
    have hw := hg w (List.mem_cons_self _ _)
    obtain ⟨d, dw, rfl⟩ : ∃ d dw, w = d :: dw := by
      cases w with
      | nil => exact absurd rfl hw.1
      | cons d dw => exact ⟨d, dw, rfl⟩
    cases ws' with
    | nil =>
      have hj : joinSp [d :: dw] = d :: dw := rfl
      rw [hj] at h
      simp at h
      exact h ▸ hw.2 d (List.mem_cons_self _ _)
    | cons w2 ws2 =>
      have hj : joinSp ((d :: dw) :: w2 :: ws2) =
          (d :: dw) ++ ' ' :: joinSp (w2 :: ws2) := rfl
      rw [hj, List.cons_append] at h
      simp at h
      exact h ▸ hw.2 d (List.mem_cons_self _ _)

/-- The join of a good word list ends with a non-space character. -/
theorem joinSp_getLast_false (ws : List (List Char)) : goodWords ws →
    ∀ c, (joinSp ws).getLast? = some c → pyIsSpace c = false := by
  induction ws with
  | nil => intro _ c h; simp [joinSp] at h
  | cons w ws' ih =>
    intro hg c h
    cases ws' with
    | nil =>
      have hj : joinSp [w] = w := rfl
      rw [hj] at h
      exact (hg w (List.mem_cons_self _ _)).2 c (List.mem_of_mem_getLast? h)
    | cons w2 ws2 =>
      have hj : joinSp (w :: w2 :: ws2) = w ++ ' ' :: joinSp (w2 :: ws2) := rfl
      rw [hj] at h
      have hne : joinSp (w2 :: ws2) ≠ [] :=
        joinSp_ne_nil _ (fun v hv => hg v (List.mem_cons_of_mem _ hv)) (by simp)
      rw [List.getLast?_append_of_ne_nil _ (by simp)] at h
      have h' : ([' '] ++ joinSp (w2 :: ws2)).getLast? = some c := h
      rw [List.getLast?_append_of_ne_nil _ hne] at h'
      exact ih (fun v hv => hg v (List.mem_cons_of_mem _ hv)) c h'

/-- A stream with non-space edges is a fixed point of stripping. -/
theorem pyStrip_of_edges (X : List Char)
    (h1 : ∀ c, X.head? = some c → pyIsSpace c = false)
    (h2 : ∀ c, X.getLast? = some c → pyIsSpace c = false) :
    pyStrip X = X := by
  rw [pyStrip]
  have hd : X.dropWhile pyIsSpace = X := by
    cases X with
    | nil => rfl
    | cons c cx =>
      rw [List.dropWhile_cons, if_neg (by simp [h1 c rfl])]
  rw [hd]
  have hr : X.reverse.dropWhile pyIsSpace = X.reverse := by
    cases hrev : X.reverse with
    | nil => rfl
    | cons e es =>
      have he : X.getLast? = some e := by
        rw [← List.head?_reverse, hrev]
        rfl
      rw [List.dropWhile_cons, if_neg (by simp [h2 e he])]
  rw [hr, List.reverse_reverse]

/-- The whitespace collapse needs no further stripping. -/
theorem pyStrip_collapseWs (l : List Char) :
    pyStrip (collapseWs l) = collapseWs l := by
  rw [collapseWs, pyWords]
  exact pyStrip_of_edges _
    (joinSp_head_false _ (pyWordsGo_good l.length l))
    (joinSp_getLast_false _ (pyWordsGo_good l.length l))

/-- Without a newline, the first line is the whole text. -/
theorem firstLine_id (l : List Char) (h : ¬ '\n' ∈ l) : firstLine l = l := by
  rw [firstLine, List.takeWhile_eq_self_iff]
  intro x hx
  simp
  intro hx'
  exact h (hx' ▸ hx)

/-- Without a semicolon, the semicolon cut is the identity. -/
theorem semiCut_id (l : List Char) (h : ¬ ';' ∈ l) : semiCut l = l := by
  rw [semiCut, if_neg h]

/-- Stripping only removes characters. -/
theorem pyStrip_mem (l : List Char) (c : Char) (h : c ∈ pyStrip l) : c ∈ l := by
  obtain ⟨pre, suf, hdec, -, -⟩ := pyStrip_decomp l
  rw [hdec]
  simp [h]

/-- The semicolon cut leaves no semicolon behind. -/
theorem semiCut_no_semi (l : List Char) : ¬ ';' ∈ semiCut l := by
  rw [semiCut]
  by_cases h : ';' ∈ l
  · rw [if_pos h]
    intro hmem
    have := List.mem_takeWhile_imp (pyStrip_mem _ _ hmem)
    simp at this
  · rw [if_neg h]
    exact h

/-- Ordinal stripping only removes characters. -/
theorem ordStrip_mem (l : List Char) (c : Char) (h : c ∈ ordStrip l) : c ∈ l := by
  simp only [ordStrip] at h
  split at h
  · exact h
  · split at h
    · rename_i rest heq
      have h1 : c ∈ rest := (List.dropWhile_sublist _).mem h
      have h2 : c ∈ l.dropWhile isDigitA := by
        rw [heq]
        exact List.mem_cons_of_mem _ h1
      exact (List.dropWhile_sublist _).mem h2
    · exact h

/-- When the text does not start with digits followed by a period, the
ordinal strip is the identity. -/
theorem ordStrip_id_of (l : List Char)
    (h : l.takeWhile isDigitA = [] ∨ (l.dropWhile isDigitA).head? ≠ some '.') :
    ordStrip l = l := by
  simp only [ordStrip]
  split
  · rfl
  · rename_i hds
    split
    · rename_i rest heq
      rcases h with h | h
      · exact absurd h hds
      · rw [heq] at h
        simp at h
    · rfl

/-- The ordinal strip returns the input or a suffix of it. -/
theorem ordStrip_suffix (l : List Char) :
    ordStrip l = l ∨ ∃ u, l = u ++ ordStrip l := by
  simp only [ordStrip]
  split
  · exact Or.inl rfl
  · split
    · rename_i rest heq
      right
      refine ⟨l.takeWhile isDigitA ++ '.' :: rest.takeWhile pyIsSpace, ?_⟩
      conv_lhs => rw [← List.takeWhile_append_dropWhile (p := isDigitA) (l := l)]
      rw [heq]
      conv_lhs => rw [← List.takeWhile_append_dropWhile (p := pyIsSpace) (l := rest)]
      simp
    · exact Or.inl rfl

/-- The semicolon cut returns the input or an infix of it. -/
theorem semiCut_cases (l : List Char) :
    semiCut l = l ∨ ∃ u v, l = u ++ semiCut l ++ v := by
  rw [semiCut]
  by_cases h : ';' ∈ l
  · rw [if_pos h]
    right
    obtain ⟨pre, suf, hdec, -, -⟩ :=
      pyStrip_decomp (l.takeWhile (fun c => c ≠ ';'))
    refine ⟨pre, suf ++ l.dropWhile (fun c => c ≠ ';'), ?_⟩
    calc l = l.takeWhile (fun c => c ≠ ';') ++ l.dropWhile (fun c => c ≠ ';') :=
          (List.takeWhile_append_dropWhile _ l).symm
      _ = (pre ++ pyStrip (l.takeWhile (fun c => c ≠ ';')) ++ suf) ++
            l.dropWhile (fun c => c ≠ ';') := by rw [← hdec]
      _ = pre ++ pyStrip (l.takeWhile (fun c => c ≠ ';')) ++
            (suf ++ l.dropWhile (fun c => c ≠ ';')) := by
          rw [List.append_assoc (pre ++ pyStrip (l.takeWhile (fun c => c ≠ ';'))) suf]
  · rw [if_neg h]
    exact Or.inl rfl

/-- Characters of the collapse of a stream, word-level version. -/
theorem joinSp_pyWordsGo_mem (f : Nat) (l : List Char) (c : Char)
    (h : c ∈ joinSp (pyWordsGo f l)) : c ∈ l ∨ c = ' ' := by
  rcases joinSp_mem _ c h with ⟨w, hw, hc⟩ | h
  · exact Or.inl (pyWordsGo_mem f l w hw c hc)
  · exact Or.inr h

/-- `NoDelim` survives whitespace collapsing, for non-space delimiters. -/
theorem noDelim_joinSp_go (o t : Char) (ho : pyIsSpace o = false)
    (ht : pyIsSpace t = false) :
    ∀ f l, l.length ≤ f → NoDelim o t l →
      NoDelim o t (joinSp (pyWordsGo f l)) := by
  intro f
  induction f with
  | zero =>
    intro l _ _
    exact noDelim_nil o t
  | succ f ih =>
    intro l hf h
    cases l with
    | nil => exact noDelim_nil o t
    | cons c cs =>
      rw [pyWordsGo]
      have hcs : cs.length ≤ f := by
        simp at hf
        omega
      by_cases hc : pyIsSpace c
      · rw [if_pos hc]
        exact ih cs hcs (noDelim_tail o t c cs h)
      · rw [if_neg hc]
        have hcs_split : cs = cs.takeWhile (fun d => !pyIsSpace d) ++
            cs.dropWhile (fun d => !pyIsSpace d) :=
          (List.takeWhile_append_dropWhile _ _).symm
        have hl_split : c :: cs = (c :: cs.takeWhile (fun d => !pyIsSpace d)) ++
            cs.dropWhile (fun d => !pyIsSpace d) := by
          rw [List.cons_append, ← hcs_split]
        have hrest_len : (cs.dropWhile (fun d => !pyIsSpace d)).length ≤ f :=
          le_trans (List.dropWhile_sublist _).length_le hcs
        have hrest_nd : NoDelim o t (cs.dropWhile (fun d => !pyIsSpace d)) :=
          noDelim_append_right o t _ _ (hl_split ▸ h)
        have hm : NoDelim o t
            (joinSp (pyWordsGo f (cs.dropWhile (fun d => !pyIsSpace d)))) :=
          ih _ hrest_len hrest_nd
        cases hws : pyWordsGo f (cs.dropWhile (fun d => !pyIsSpace d)) with
        | nil =>
          have hj : joinSp [c :: cs.takeWhile (fun d => !pyIsSpace d)] =
              c :: cs.takeWhile (fun d => !pyIsSpace d) := rfl
          rw [hj]
          exact noDelim_append_left o t _ _ (hl_split ▸ h)
        | cons w2 ws2 =>
          rw [hws] at hm
          have hj : joinSp ((c :: cs.takeWhile (fun d => !pyIsSpace d)) :: w2 :: ws2) =
              (c :: cs.takeWhile (fun d => !pyIsSpace d)) ++ ' ' :: joinSp (w2 :: ws2) :=
            rfl
          rw [hj]
          intro a b hab
          rcases List.append_eq_append_iff.mp hab with ⟨k, ha, hk⟩ | ⟨k, hw', hk⟩
          · cases k with
            | nil =>
              rw [List.nil_append] at hk
              have hko : ' ' = o := by
                have := congrArg List.head? hk
                simpa using this
              rw [← hko] at ho
              exact absurd ho (by decide)
            | cons x k' =>
              rw [List.cons_append] at hk
              have hk' : joinSp (w2 :: ws2) = k' ++ o :: b := by
                have := congrArg List.tail hk
                exact this
              exact hm k' b hk'
          · cases k with
            | nil =>
              rw [List.nil_append] at hk
              have hko : o = ' ' := by
                have := congrArg List.head? hk
                simpa using this
              rw [hko] at ho
              exact absurd ho (by decide)
            | cons x k' =>
              rw [List.cons_append] at hk
              have hxo : x = o := by
                have := congrArg List.head? hk
                simpa using this.symm
              rw [hxo] at hw' hk
              have hb : b = k' ++ ' ' :: joinSp (w2 :: ws2) := by
                have := congrArg List.tail hk
                exact this
              have hlo : c :: cs =
                  a ++ o :: (k' ++ cs.dropWhile (fun d => !pyIsSpace d)) := by
                rw [hl_split, hw']
                simp
              rcases h a (k' ++ cs.dropWhile (fun d => !pyIsSpace d)) hlo
                with h1 | h2 | h3
              · exfalso
                have hrestnil : cs.dropWhile (fun d => !pyIsSpace d) = [] :=
                  (List.append_eq_nil.mp h1).2
                rw [hrestnil, pyWordsGo_nil] at hws
                simp at hws
              · cases k' with
                | nil =>
                  exfalso
                  rw [List.nil_append] at h2
                  have := dropWhile_head_false _ cs t h2
                  rw [ht] at this
                  simp at this
                | cons y k'' =>
                  right; left
                  have hy : y = t := by simpa using h2
                  rw [hb, hy]
                  rfl
              · right; right
                rw [hb]
                intro hmem
                rcases List.mem_append.mp hmem with hmem | hmem
                · exact h3 (List.mem_append.mpr (Or.inl hmem))
                · rcases List.mem_cons.mp hmem with hmem | hmem
                  · rw [hmem] at ht
                    exact absurd ht (by decide)
                  · rw [← hws] at hmem
                    rcases joinSp_pyWordsGo_mem f _ t hmem with hmem | hmem
                    · exact h3 (List.mem_append.mpr (Or.inr hmem))
                    · rw [hmem] at ht
                      exact absurd ht (by decide)

/-- `NoDelim` survives the whitespace collapse. -/
theorem noDelim_collapseWs (o t : Char) (ho : pyIsSpace o = false)
    (ht : pyIsSpace t = false) (l : List Char) (h : NoDelim o t l) :
    NoDelim o t (collapseWs l) := by
  rw [collapseWs, pyWords]
  exact noDelim_joinSp_go o t ho ht l.length l le_rfl h

/-- `stripDelims` output has no delimiter pattern. -/
theorem stripDelims_noDelim (o t : Char) (h : o ≠ t) (l : List Char) :
    NoDelim o t (stripDelims o t l) :=
  stripDGo_noDelim o t h l.length l le_rfl

/-- A pattern-free stream is a fixed point of `stripDelims`. -/
theorem stripDelims_id (o t : Char) (l : List Char) (h : NoDelim o t l) :
    stripDelims o t l = l :=
  stripDGo_id o t l.length l h le_rfl

/-- Pattern freedom survives stripping another delimiter pair. -/
theorem stripDelims_preserve (o t o' t' : Char) (hto : t ≠ o') (l : List Char)
    (h : NoDelim o t l) : NoDelim o t (stripDelims o' t' l) :=
  stripDGo_preserve o t o' t' hto l.length l h le_rfl

/-- Pattern freedom passes to `takeWhile` prefixes. -/
theorem noDelim_takeWhile (o t : Char) (p : Char → Bool) (l : List Char)
    (h : NoDelim o t l) : NoDelim o t (l.takeWhile p) := by
  rw [← List.takeWhile_append_dropWhile p l] at h
  exact noDelim_append_left o t _ _ h

/-- Pattern freedom passes to the stripped text. -/
theorem noDelim_pyStrip (o t : Char) (l : List Char) (h : NoDelim o t l) :
    NoDelim o t (pyStrip l) := by
  obtain ⟨pre, suf, hdec, -, -⟩ := pyStrip_decomp l
  rw [hdec] at h
  exact noDelim_infix o t pre _ suf h

/-- Pattern freedom passes to the semicolon cut. -/
theorem noDelim_semiCut (o t : Char) (l : List Char) (h : NoDelim o t l) :
    NoDelim o t (semiCut l) := by
  rcases semiCut_cases l with heq | ⟨u, v, hdec⟩
  · rwa [heq]
  · rw [hdec] at h
    exact noDelim_infix o t u _ v h

/-- Pattern freedom passes to the ordinal strip. -/
theorem noDelim_ordStrip (o t : Char) (l : List Char) (h : NoDelim o t l) :
    NoDelim o t (ordStrip l) := by
  rcases ordStrip_suffix l with heq | ⟨u, hdec⟩
  · rwa [heq]
  · rw [hdec] at h
    exact noDelim_append_right o t u _ h

/-- The cleanup pipeline's output is a fixed point of each of its stages
except the ordinal strip. -/
theorem cleanDef_fix (s : List Char) :
    stripDelims '<' '>' (cleanDef s) = cleanDef s ∧
    stripDelims '[' ']' (cleanDef s) = cleanDef s ∧
    firstLine (cleanDef s) = cleanDef s ∧
    pyStrip (cleanDef s) = cleanDef s ∧
    semiCut (cleanDef s) = cleanDef s ∧
    collapseWs (cleanDef s) = cleanDef s := by
  have hdef : cleanDef s = collapseWs (ordStrip (semiCut (pyStrip (firstLine
      (stripDelims '[' ']' (stripDelims '<' '>' s)))))) := rfl
  have htag : NoDelim '<' '>' (cleanDef s) := by
    rw [hdef]
    refine noDelim_collapseWs _ _ (by decide) (by decide) _ ?_
    refine noDelim_ordStrip _ _ _ ?_
    refine noDelim_semiCut _ _ _ ?_
    refine noDelim_pyStrip _ _ _ ?_
    refine noDelim_takeWhile _ _ _ _ ?_
    exact stripDelims_preserve '<' '>' '[' ']' (by decide) _
      (stripDelims_noDelim '<' '>' (by decide) s)
  have hbr : NoDelim '[' ']' (cleanDef s) := by
    rw [hdef]
    refine noDelim_collapseWs _ _ (by decide) (by decide) _ ?_
    refine noDelim_ordStrip _ _ _ ?_
    refine noDelim_semiCut _ _ _ ?_
    refine noDelim_pyStrip _ _ _ ?_
    refine noDelim_takeWhile _ _ _ _ ?_
    exact stripDelims_noDelim '[' ']' (by decide) _
  refine ⟨stripDelims_id _ _ _ htag, stripDelims_id _ _ _ hbr, ?_, ?_, ?_, ?_⟩
  · refine firstLine_id _ ?_
    intro hmem
    rw [hdef] at hmem
    have := collapseWs_space_mem _ _ hmem (by decide)
    exact absurd this (by decide)
  · rw [hdef]
    exact pyStrip_collapseWs _
  · refine semiCut_id _ ?_
    intro hmem
    rw [hdef] at hmem
    rcases collapseWs_mem _ _ hmem with hmem | hmem
    · exact semiCut_no_semi _ (ordStrip_mem _ _ hmem)
    · exact absurd hmem (by decide)
  · rw [hdef]
    exact collapseWs_idem _

/-- Counterexample to claim C8 as stated: the cleanup pipeline is not
idempotent — `"1. 2. x"` cleans to `"2. x"`, which a second application
shortens to `"x"` by stripping one more leading ordinal marker. -/
theorem cleanup_not_idem :
    cleanDef (cleanDef "1. 2. x".data) ≠ cleanDef "1. 2. x".data := by decide

/-- Claim C8 (amended): the cleanup pipeline is idempotent on every input
whose cleaned form does not itself begin with an ordinal marker (a run of
Unicode decimal digits followed by a period); only the leading-ordinal strip
can act again on an already-cleaned string. -/
theorem cleanup_idem (s : List Char)
    (h : (cleanDef s).takeWhile isDigitA = [] ∨
      ((cleanDef s).dropWhile isDigitA).head? ≠ some '.') :
    cleanDef (cleanDef s) = cleanDef s := by
  obtain ⟨f1, f2, f3, f4, f5, f6⟩ := cleanDef_fix s
  have hord : ordStrip (cleanDef s) = cleanDef s := ordStrip_id_of _ h
  calc cleanDef (cleanDef s)
      = collapseWs (ordStrip (semiCut (pyStrip (firstLine
          (stripDelims '[' ']' (stripDelims '<' '>' (cleanDef s))))))) := rfl
    _ = cleanDef s := by rw [f1, f2, f3, f4, f5, hord, f6]

/-- Witness for the amended C8 at a concrete already-ordinal-free input. -/
theorem cleanup_idem_witness :
    cleanDef (cleanDef "<b>Hello</b>  [h@lo] world\ntail".data) =
      cleanDef "<b>Hello</b>  [h@lo] world\ntail".data :=
  cleanup_idem "<b>Hello</b>  [h@lo] world\ntail".data (by decide)
